import Mathlib

/-!
# Verification of the secret-stage deprecater core

Shallow embedding of the stage-trimming pipeline:

* `pickOldestStageToDeprecate` — the pure Selector (source lines 9–13 of the
  core module): given already-deduplicated stage records and a threshold,
  returns `none` when at or under budget, otherwise the head of a stable sort
  by `createdDate` ascending (JS `toSorted` with comparator
  `a.createdDate - b.createdDate`, modelled as `List.mergeSort`, which is
  stable).
* `trimStagesWithClient` — the Collector/Mutator: paginated listing,
  flattening of version entries into label records, exclusion filtering and
  latest-wins deduplication via an insertion-ordered map, selection, and a
  single guarded remove-stage mutation.

Timestamps are modelled as `Nat` milliseconds since the epoch (JS `Date`
objects compare numerically; a missing `CreatedDate` becomes `new Date(0)`,
i.e. `0`).  The remote client is modelled as a script of responses to the
successive listing calls plus one response for the update call; every command
sent is recorded in a call trace so that theorems can speak about exactly
which calls were issued.
-/

/-- One `{ stage, versionId, createdDate }` record pushed into `labeled`
during collection. -/
structure LabelRecord where
  stage : String
  versionId : String
  createdDate : Nat
deriving DecidableEq, Repr

/-- The JS sort comparator `(a, b) => a.createdDate - b.createdDate`:
`a` sorts no later than `b` iff `a.createdDate ≤ b.createdDate`. -/
def dateLE (a b : LabelRecord) : Bool :=
  decide (a.createdDate ≤ b.createdDate)

/-- `pickOldestStageToDeprecate(stages, threshold)` from the source:
`if (stages.length <= threshold) return null;` then
`stages.toSorted((a, b) => a.createdDate - b.createdDate)[0]`.
JS `toSorted` is a stable sort, modelled by `List.mergeSort`. -/
def pickOldestStageToDeprecate (stages : List LabelRecord) (threshold : Nat) :
    Option LabelRecord :=
  if stages.length ≤ threshold then none
  else (stages.mergeSort dateLE).head?

/-- Executable characterisation of `sorted[0]` for a stable sort: the first
element of the list attaining the minimal `createdDate`. -/
def firstMin : List LabelRecord → Option LabelRecord
  | [] => none
  | a :: rest =>
    match firstMin rest with
    | none => some a
    | some b => some (if b.createdDate < a.createdDate then b else a)

theorem dateLE_trans (a b c : LabelRecord) :
    dateLE a b → dateLE b c → dateLE a c := by
  simp only [dateLE, decide_eq_true_eq]
  exact Nat.le_trans

theorem dateLE_total (a b : LabelRecord) : dateLE a b || dateLE b a := by
  simp only [dateLE, Bool.or_eq_true, decide_eq_true_eq]
  exact Nat.le_total _ _

theorem head?_mergeSort_eq_firstMin (l : List LabelRecord) :
    (l.mergeSort dateLE).head? = firstMin l := by
  induction l with
  | nil => simp [firstMin]
  | cons a t ih =>
    obtain ⟨l₁, l₂, h₁, h₂, h₃⟩ := List.mergeSort_cons dateLE_trans dateLE_total a t
    have hsorted := List.sorted_mergeSort dateLE_trans dateLE_total (a :: t)
    cases l₁ with
    | nil =>
      simp only [List.nil_append] at h₁ h₂
      rw [h₁] at hsorted ⊢
      rw [h₂] at ih
      cases l₂ with
      | nil =>
        simp only [List.head?_nil] at ih
        simp [firstMin, ← ih]
      | cons b l₂t =>
        simp only [List.head?_cons] at ih
        have hab : dateLE a b := by
          have := (List.pairwise_cons.mp hsorted).1 b (by simp)
          exact this
        have hab' : a.createdDate ≤ b.createdDate := by
          simpa [dateLE] using hab
        simp only [firstMin, ← ih, List.head?_cons]
        have : ¬ b.createdDate < a.createdDate := Nat.not_lt.mpr hab'
        simp [this]
    | cons c l₁t =>
      rw [h₂] at ih
      rw [h₁]
      have hc : dateLE a c = false := by
        have := h₃ c (by simp)
        simpa using this
      have hc' : c.createdDate < a.createdDate := by
        have : ¬ a.createdDate ≤ c.createdDate := by
          simpa [dateLE] using hc
        omega
      simp only [firstMin, ← ih, List.head?_cons, List.cons_append]
      simp [hc']

theorem firstMin_eq_none {l : List LabelRecord} : firstMin l = none ↔ l = [] := by
  cases l with
  | nil => simp [firstMin]
  | cons a t =>
    simp only [firstMin]
    cases firstMin t <;> simp

theorem firstMin_mem {l : List LabelRecord} :
    ∀ {r : LabelRecord}, firstMin l = some r → r ∈ l := by
  induction l with
  | nil => intro r h; simp [firstMin] at h
  | cons a t ih =>
    intro r h
    simp only [firstMin] at h
    cases ht : firstMin t with
    | none =>
      rw [ht] at h
      have ha : a = r := by simpa using h
      subst ha
      simp
    | some b =>
      rw [ht] at h
      have hr : (if b.createdDate < a.createdDate then b else a) = r := by
        simpa using h
      by_cases hlt : b.createdDate < a.createdDate
      · rw [if_pos hlt] at hr
        subst hr
        exact List.mem_cons_of_mem a (ih ht)
      · rw [if_neg hlt] at hr
        subst hr
        simp

theorem firstMin_le {l : List LabelRecord} :
    ∀ {r : LabelRecord}, firstMin l = some r →
      ∀ y ∈ l, r.createdDate ≤ y.createdDate := by
  induction l with
  | nil => intro r h; simp [firstMin] at h
  | cons a t ih =>
    intro r h y hy
    simp only [firstMin] at h
    cases ht : firstMin t with
    | none =>
      rw [ht] at h
      have ha : a = r := by simpa using h
      subst ha
      have hte : t = [] := firstMin_eq_none.mp ht
      subst hte
      rcases List.mem_cons.mp hy with rfl | hyn
      · exact Nat.le_refl _
      · simp at hyn
    | some b =>
      rw [ht] at h
      have hr : (if b.createdDate < a.createdDate then b else a) = r := by
        simpa using h
      have hb := ih ht
      rcases List.mem_cons.mp hy with hya | hyt
      · rw [hya]
        by_cases hlt : b.createdDate < a.createdDate
        · rw [if_pos hlt] at hr; subst hr; omega
        · rw [if_neg hlt] at hr; subst hr; omega
      · have hby := hb y hyt
        by_cases hlt : b.createdDate < a.createdDate
        · rw [if_pos hlt] at hr; subst hr; omega
        · rw [if_neg hlt] at hr; subst hr; omega

theorem firstMin_find? {l : List LabelRecord} :
    ∀ {r : LabelRecord}, firstMin l = some r →
      l.find? (fun y => y.createdDate == r.createdDate) = some r := by
  induction l with
  | nil => intro r h; simp [firstMin] at h
  | cons a t ih =>
    intro r h
    simp only [firstMin] at h
    cases ht : firstMin t with
    | none =>
      rw [ht] at h
      have ha : a = r := by simpa using h
      subst ha
      apply List.find?_cons_of_pos
      simp
    | some b =>
      rw [ht] at h
      have hr : (if b.createdDate < a.createdDate then b else a) = r := by
        simpa using h
      by_cases hlt : b.createdDate < a.createdDate
      · rw [if_pos hlt] at hr
        subst hr
        rw [List.find?_cons_of_neg]
        · exact ih ht
        · simp only [beq_iff_eq]
          omega
      · rw [if_neg hlt] at hr
        subst hr
        apply List.find?_cons_of_pos
        simp

theorem firstMin_exists {l : List LabelRecord} (h : l ≠ []) :
    ∃ r, firstMin l = some r := by
  cases l with
  | nil => exact (h rfl).elim
  | cons a t =>
    simp only [firstMin]
    cases firstMin t with
    | none => exact ⟨a, rfl⟩
    | some b => exact ⟨_, rfl⟩

/-- `pickOldestStageToDeprecate` rewritten through the stability argument:
the head of the stable sort is the first record attaining the minimal
`createdDate`.  This form evaluates by kernel reduction. -/
def pickOldestExec (stages : List LabelRecord) (threshold : Nat) :
    Option LabelRecord :=
  if stages.length ≤ threshold then none else firstMin stages

theorem pickOldest_eq_exec (stages : List LabelRecord) (threshold : Nat) :
    pickOldestStageToDeprecate stages threshold = pickOldestExec stages threshold := by
  unfold pickOldestStageToDeprecate pickOldestExec
  by_cases h : stages.length ≤ threshold
  · simp [h]
  · simp [h, head?_mergeSort_eq_firstMin]

theorem pickOldest_mem {stages : List LabelRecord} {threshold : Nat}
    {r : LabelRecord} (h : pickOldestStageToDeprecate stages threshold = some r) :
    r ∈ stages := by
  rw [pickOldest_eq_exec] at h
  unfold pickOldestExec at h
  by_cases hl : stages.length ≤ threshold
  · simp [hl] at h
  · simp only [hl, if_false] at h
    exact firstMin_mem h

/-- Input used to witness the Selector contract: three records, two of which
tie for the minimal `createdDate`. -/
def demoC2 : List LabelRecord :=
  [⟨"stage-b", "v2", 5⟩, ⟨"stage-a", "v1", 3⟩, ⟨"stage-c", "v3", 3⟩]

/-- C2: for every list of stage records and every threshold,
`pickOldestStageToDeprecate` returns no candidate when the length is at most
the threshold; otherwise it returns a record of the list with the minimum
`createdDate`, and among records sharing that minimum it is the first in
input order (stated via `List.find?` on the minimal timestamp). -/
theorem selector_contract (stages : List LabelRecord) (threshold : Nat) :
    (stages.length ≤ threshold →
      pickOldestStageToDeprecate stages threshold = none) ∧
    (threshold < stages.length →
      ∃ r, pickOldestStageToDeprecate stages threshold = some r ∧
        r ∈ stages ∧
        (∀ y ∈ stages, r.createdDate ≤ y.createdDate) ∧
        stages.find? (fun y => y.createdDate == r.createdDate) = some r) := by
  constructor
  · intro h
    rw [pickOldest_eq_exec]
    simp [pickOldestExec, h]
  · intro h
    have hne : stages ≠ [] := by
      intro hnil
      rw [hnil] at h
      simp at h
    obtain ⟨r, hr⟩ := firstMin_exists hne
    refine ⟨r, ?_, firstMin_mem hr, firstMin_le hr, firstMin_find? hr⟩
    rw [pickOldest_eq_exec]
    simp [pickOldestExec, Nat.not_le.mpr h, hr]

/-- Witness for C2 at `demoC2` with threshold 1: the selected record is the
first of the two records tying at the minimal timestamp 3. -/
theorem selector_contract_witness :
    ∃ r, pickOldestStageToDeprecate demoC2 1 = some r ∧
      r ∈ demoC2 ∧
      (∀ y ∈ demoC2, r.createdDate ≤ y.createdDate) ∧
      demoC2.find? (fun y => y.createdDate == r.createdDate) = some r :=
  (selector_contract demoC2 1).2 (by decide)

/-! ## Exclusion filtering and latest-wins deduplication

Source lines 49–58 of the core module:
```
const latestByStage = new Map();
for (const e of labeled) {
    if (excludeStages.has(e.stage)) continue;
    const prev = latestByStage.get(e.stage);
    if (!prev || e.createdDate > prev.createdDate) latestByStage.set(e.stage, e);
}
const uniqueStages = Array.from(latestByStage.values());
```
A JS `Map` is insertion-ordered and `set` on an existing key keeps the
position, so the map is modelled as an association list: setting a fresh key
appends, setting an existing key replaces in place. -/

/-- `latestByStage.set(e.stage, e)` when the key is already present: replace
the stored entry in place, keeping insertion order. -/
def updateEntry (m : List (String × LabelRecord)) (e : LabelRecord) :
    List (String × LabelRecord) :=
  m.map (fun p => if p.1 = e.stage then (e.stage, e) else p)

/-- One iteration of the dedup loop body for record `e`. -/
def dedupStep (excludeStages : List String) (m : List (String × LabelRecord))
    (e : LabelRecord) : List (String × LabelRecord) :=
  if excludeStages.contains e.stage then m
  else
    match m.find? (fun p => p.1 == e.stage) with
    | none => m ++ [(e.stage, e)]
    | some prev => if prev.2.createdDate < e.createdDate then updateEntry m e else m

/-- The whole dedup loop: fold the collected records left to right. -/
def latestByStage (excludeStages : List String) (labeled : List LabelRecord) :
    List (String × LabelRecord) :=
  labeled.foldl (dedupStep excludeStages) []

/-- `Array.from(latestByStage.values())`. -/
def uniqueStagesOf (excludeStages : List String) (labeled : List LabelRecord) :
    List LabelRecord :=
  (latestByStage excludeStages labeled).map (fun p => p.2)

/-- Structural invariant of the map: each entry is keyed by its record's
stage, and no key is excluded. -/
def EntryInv (excludeStages : List String) (m : List (String × LabelRecord)) :
    Prop :=
  ∀ p ∈ m, p.1 = p.2.stage ∧ excludeStages.contains p.1 = false

theorem entryInv_updateEntry {ex : List String} {m : List (String × LabelRecord)}
    (hm : EntryInv ex m) {e : LabelRecord}
    (hex : ex.contains e.stage = false) : EntryInv ex (updateEntry m e) := by
  intro p hp
  simp only [updateEntry] at hp
  obtain ⟨q, hq, hpq⟩ := List.mem_map.mp hp
  by_cases hqe : q.1 = e.stage
  · rw [if_pos hqe] at hpq
    subst hpq
    exact ⟨rfl, hex⟩
  · rw [if_neg hqe] at hpq
    subst hpq
    exact hm q hq

theorem entryInv_dedupStep {ex : List String} {m : List (String × LabelRecord)}
    (hm : EntryInv ex m) (e : LabelRecord) : EntryInv ex (dedupStep ex m e) := by
  unfold dedupStep
  split
  · exact hm
  · rename_i hex
    have hexf : ex.contains e.stage = false := by
      simpa using hex
    split
    · intro p hp
      rcases List.mem_append.mp hp with hpm | hpe
      · exact hm p hpm
      · have hpeq : p = (e.stage, e) := by simpa using hpe
        subst hpeq
        exact ⟨rfl, hexf⟩
    · split
      · exact entryInv_updateEntry hm hexf
      · exact hm

theorem entryInv_foldl {ex : List String} :
    ∀ (labeled : List LabelRecord) (m : List (String × LabelRecord)),
      EntryInv ex m → EntryInv ex (labeled.foldl (dedupStep ex) m)
  | [], m, hm => hm
  | e :: rest, m, hm => entryInv_foldl rest (dedupStep ex m e) (entryInv_dedupStep hm e)

theorem entryInv_latestByStage (ex : List String) (labeled : List LabelRecord) :
    EntryInv ex (latestByStage ex labeled) :=
  entryInv_foldl labeled [] (by intro p hp; simp at hp)

theorem mem_uniqueStages_not_excluded {ex : List String}
    {labeled : List LabelRecord} {r : LabelRecord}
    (h : r ∈ uniqueStagesOf ex labeled) : ex.contains r.stage = false := by
  obtain ⟨p, hp, hpr⟩ := List.mem_map.mp h
  have := entryInv_latestByStage ex labeled p hp
  rw [← hpr, ← this.1]
  exact this.2

/-- Record used to witness the exclusion invariant: an excluded stage with
the oldest possible timestamp. -/
def c3rec : LabelRecord := ⟨"AWSCURRENT", "v1", 0⟩

def c3labeled : List LabelRecord := [c3rec, ⟨"custom-a", "v2", 7⟩]

def c3ex : List String := ["AWSCURRENT", "AWSPREVIOUS", "AWSPENDING"]

/-- C3: a collected record whose stage is in the exclusion set never appears
in the deduplicated unique-stage index and is never the selected candidate,
whatever its `createdDate` and whatever the threshold. -/
theorem exclusion_absolute (excludeStages : List String)
    (labeled : List LabelRecord) (r : LabelRecord)
    (hr : excludeStages.contains r.stage = true) :
    r ∉ uniqueStagesOf excludeStages labeled ∧
    ∀ threshold c,
      pickOldestStageToDeprecate (uniqueStagesOf excludeStages labeled)
        threshold = some c → c ≠ r := by
  constructor
  · intro hmem
    have := mem_uniqueStages_not_excluded hmem
    rw [hr] at this
    exact Bool.true_eq_false.mp this
  · intro threshold c hc hcr
    subst hcr
    have := mem_uniqueStages_not_excluded (pickOldest_mem hc)
    rw [hr] at this
    exact Bool.true_eq_false.mp this

/-- Witness for C3: with the default reserved stages excluded, the
`AWSCURRENT` record of `c3labeled` is never indexed nor selected. -/
theorem exclusion_absolute_witness :
    c3rec ∉ uniqueStagesOf c3ex c3labeled ∧
    ∀ threshold c,
      pickOldestStageToDeprecate (uniqueStagesOf c3ex c3labeled) threshold =
        some c → c ≠ c3rec :=
  exclusion_absolute c3ex c3labeled c3rec (by decide)

/-! ## What the dedup loop keeps per stage

The loop replaces the stored record only when the new record's `createdDate`
is STRICTLY greater (`e.createdDate > prev.createdDate`), so on equal
timestamps the first-seen record is kept. -/

/-- One step of the per-stage scan implied by the loop body: replace the kept
record only when the new one is strictly newer. -/
def keepLatest : Option LabelRecord → LabelRecord → Option LabelRecord
  | none, e => some e
  | some prev, e =>
    if prev.createdDate < e.createdDate then some e else some prev

/-- The first element of the list attaining the maximal `createdDate`. -/
def firstMax : List LabelRecord → Option LabelRecord
  | [] => none
  | a :: rest =>
    match firstMax rest with
    | none => some a
    | some b => some (if a.createdDate < b.createdDate then b else a)

theorem firstMax_eq_none {l : List LabelRecord} : firstMax l = none ↔ l = [] := by
  cases l with
  | nil => simp [firstMax]
  | cons a t =>
    simp only [firstMax]
    cases firstMax t <;> simp

theorem firstMax_mem {l : List LabelRecord} :
    ∀ {r : LabelRecord}, firstMax l = some r → r ∈ l := by
  induction l with
  | nil => intro r h; simp [firstMax] at h
  | cons a t ih =>
    intro r h
    simp only [firstMax] at h
    cases ht : firstMax t with
    | none =>
      rw [ht] at h
      have ha : a = r := by simpa using h
      subst ha
      simp
    | some b =>
      rw [ht] at h
      have hr : (if a.createdDate < b.createdDate then b else a) = r := by
        simpa using h
      by_cases hlt : a.createdDate < b.createdDate
      · rw [if_pos hlt] at hr
        subst hr
        exact List.mem_cons_of_mem a (ih ht)
      · rw [if_neg hlt] at hr
        subst hr
        simp

theorem firstMax_ge {l : List LabelRecord} :
    ∀ {r : LabelRecord}, firstMax l = some r →
      ∀ y ∈ l, y.createdDate ≤ r.createdDate := by
  induction l with
  | nil => intro r h; simp [firstMax] at h
  | cons a t ih =>
    intro r h y hy
    simp only [firstMax] at h
    cases ht : firstMax t with
    | none =>
      rw [ht] at h
      have ha : a = r := by simpa using h
      subst ha
      have hte : t = [] := firstMax_eq_none.mp ht
      subst hte
      rcases List.mem_cons.mp hy with hya | hyn
      · rw [hya]
      · simp at hyn
    | some b =>
      rw [ht] at h
      have hr : (if a.createdDate < b.createdDate then b else a) = r := by
        simpa using h
      have hb := ih ht
      rcases List.mem_cons.mp hy with hya | hyt
      · rw [hya]
        by_cases hlt : a.createdDate < b.createdDate
        · rw [if_pos hlt] at hr; subst hr; omega
        · rw [if_neg hlt] at hr; subst hr; omega
      · have hby := hb y hyt
        by_cases hlt : a.createdDate < b.createdDate
        · rw [if_pos hlt] at hr; subst hr; omega
        · rw [if_neg hlt] at hr; subst hr; omega

theorem firstMax_find? {l : List LabelRecord} :
    ∀ {r : LabelRecord}, firstMax l = some r →
      l.find? (fun y => y.createdDate == r.createdDate) = some r := by
  induction l with
  | nil => intro r h; simp [firstMax] at h
  | cons a t ih =>
    intro r h
    simp only [firstMax] at h
    cases ht : firstMax t with
    | none =>
      rw [ht] at h
      have ha : a = r := by simpa using h
      subst ha
      apply List.find?_cons_of_pos
      simp
    | some b =>
      rw [ht] at h
      have hr : (if a.createdDate < b.createdDate then b else a) = r := by
        simpa using h
      by_cases hlt : a.createdDate < b.createdDate
      · rw [if_pos hlt] at hr
        subst hr
        rw [List.find?_cons_of_neg]
        · exact ih ht
        · simp only [beq_iff_eq]
          omega
      · rw [if_neg hlt] at hr
        subst hr
        apply List.find?_cons_of_pos
        simp

theorem firstMax_cons (a : LabelRecord) (l : List LabelRecord) :
    firstMax (a :: l) =
      match firstMax l with
      | none => some a
      | some b => some (if a.createdDate < b.createdDate then b else a) := rfl

theorem foldl_keepLatest_some :
    ∀ (l : List LabelRecord) (v : LabelRecord),
      l.foldl keepLatest (some v) = firstMax (v :: l) := by
  intro l
  induction l with
  | nil => intro v; simp [firstMax]
  | cons e rest ih =>
    intro v
    simp only [List.foldl_cons, keepLatest]
    by_cases h : v.createdDate < e.createdDate
    · rw [if_pos h, ih]
      cases hb : firstMax (e :: rest) with
      | none => exact absurd (firstMax_eq_none.mp hb) (by simp)
      | some b =>
        have hbe : e.createdDate ≤ b.createdDate := firstMax_ge hb e (by simp)
        have hvb : v.createdDate < b.createdDate := by omega
        rw [firstMax_cons v (e :: rest), hb]
        simp [hvb]
    · rw [if_neg h, ih]
      have hev : e.createdDate ≤ v.createdDate := by omega
      rw [firstMax_cons v rest, firstMax_cons v (e :: rest), firstMax_cons e rest]
      cases hrest : firstMax rest with
      | none => simp [Nat.not_lt.mpr hev]
      | some c =>
        by_cases hec : e.createdDate < c.createdDate
        · simp [hec]
        · have h1 : ¬ v.createdDate < c.createdDate := by omega
          simp [hec, h1, h]

theorem foldl_keepLatest_none (l : List LabelRecord) :
    l.foldl keepLatest none = firstMax l := by
  cases l with
  | nil => rfl
  | cons e rest =>
    simp only [List.foldl_cons, keepLatest]
    exact foldl_keepLatest_some rest e

theorem updateEntry_cons (q : String × LabelRecord)
    (t : List (String × LabelRecord)) (e : LabelRecord) :
    updateEntry (q :: t) e =
      (if q.1 = e.stage then (e.stage, e) else q) :: updateEntry t e := rfl

theorem find?_updateEntry_ne {m : List (String × LabelRecord)}
    {e : LabelRecord} {s : String} (hne : s ≠ e.stage) :
    (updateEntry m e).find? (fun p => p.1 == s) =
      m.find? (fun p => p.1 == s) := by
  induction m with
  | nil => rfl
  | cons q t ih =>
    rw [updateEntry_cons]
    by_cases hq : q.1 = e.stage
    · rw [if_pos hq]
      rw [List.find?_cons_of_neg _ (by simp [Ne.symm hne]),
        List.find?_cons_of_neg _ (by simp [hq, Ne.symm hne])]
      exact ih
    · rw [if_neg hq]
      by_cases hqs : q.1 = s
      · rw [List.find?_cons_of_pos _ (by simp [hqs]),
          List.find?_cons_of_pos _ (by simp [hqs])]
      · rw [List.find?_cons_of_neg _ (by simp [hqs]),
          List.find?_cons_of_neg _ (by simp [hqs])]
        exact ih

theorem find?_updateEntry_eq {m : List (String × LabelRecord)}
    {e : LabelRecord} {prev : String × LabelRecord}
    (hfind : m.find? (fun p => p.1 == e.stage) = some prev) :
    (updateEntry m e).find? (fun p => p.1 == e.stage) = some (e.stage, e) := by
  induction m with
  | nil => simp [List.find?] at hfind
  | cons q t ih =>
    rw [updateEntry_cons]
    by_cases hq : q.1 = e.stage
    · rw [if_pos hq]
      apply List.find?_cons_of_pos
      simp
    · rw [if_neg hq]
      rw [List.find?_cons_of_neg _ (by simp [hq])]
      rw [List.find?_cons_of_neg _ (by simp [hq])] at hfind
      exact ih hfind

theorem dedupStep_of_excluded {ex : List String}
    {m : List (String × LabelRecord)} {e : LabelRecord}
    (hex : ex.contains e.stage = true) : dedupStep ex m e = m := by
  unfold dedupStep
  rw [if_pos hex]

theorem dedupStep_of_notFound {ex : List String}
    {m : List (String × LabelRecord)} {e : LabelRecord}
    (hex : ex.contains e.stage = false)
    (h : m.find? (fun p => p.1 == e.stage) = none) :
    dedupStep ex m e = m ++ [(e.stage, e)] := by
  unfold dedupStep
  rw [if_neg (by simpa using hex)]
  simp only [h]

theorem dedupStep_of_found {ex : List String}
    {m : List (String × LabelRecord)} {e : LabelRecord}
    {prev : String × LabelRecord} (hex : ex.contains e.stage = false)
    (h : m.find? (fun p => p.1 == e.stage) = some prev) :
    dedupStep ex m e =
      if prev.2.createdDate < e.createdDate then updateEntry m e else m := by
  unfold dedupStep
  rw [if_neg (by simpa using hex)]
  simp only [h]

theorem dedupStep_find?_same {ex : List String}
    {m : List (String × LabelRecord)} {e : LabelRecord}
    (hex : ex.contains e.stage = false) :
    ((dedupStep ex m e).find? (fun p => p.1 == e.stage)).map (fun p => p.2) =
      keepLatest ((m.find? (fun p => p.1 == e.stage)).map (fun p => p.2)) e := by
  cases hfind : m.find? (fun p => p.1 == e.stage) with
  | none =>
    rw [dedupStep_of_notFound hex hfind, List.find?_append, hfind]
    simp [keepLatest, List.find?]
  | some prev =>
    rw [dedupStep_of_found hex hfind]
    by_cases hlt : prev.2.createdDate < e.createdDate
    · rw [if_pos hlt, find?_updateEntry_eq hfind]
      simp [keepLatest, hlt]
    · rw [if_neg hlt, hfind]
      simp [keepLatest, hlt]

theorem dedupStep_find?_ne {ex : List String}
    {m : List (String × LabelRecord)} {e : LabelRecord} {s : String}
    (hne : s ≠ e.stage) :
    (dedupStep ex m e).find? (fun p => p.1 == s) =
      m.find? (fun p => p.1 == s) := by
  by_cases hex : ex.contains e.stage = true
  · rw [dedupStep_of_excluded hex]
  · have hexf : ex.contains e.stage = false := by simpa using hex
    cases hfind : m.find? (fun p => p.1 == e.stage) with
    | none =>
      rw [dedupStep_of_notFound hexf hfind, List.find?_append]
      rw [show List.find? (fun p => p.1 == s) [(e.stage, e)] = none from by
        rw [List.find?_cons_of_neg _ (by simp [Ne.symm hne])]
        rfl]
      simp
    | some prev =>
      rw [dedupStep_of_found hexf hfind]
      by_cases hlt : prev.2.createdDate < e.createdDate
      · rw [if_pos hlt]
        exact find?_updateEntry_ne hne
      · rw [if_neg hlt]

/-- The authoritative per-stage lookup of the dedup map after a full run of
the filter-and-dedup loop. -/
def stageEntry (excludeStages : List String) (labeled : List LabelRecord)
    (s : String) : Option LabelRecord :=
  ((latestByStage excludeStages labeled).find? (fun p => p.1 == s)).map
    (fun p => p.2)

theorem foldl_dedup_find? {ex : List String} {s : String}
    (hs : ex.contains s = false) :
    ∀ (labeled : List LabelRecord) (m : List (String × LabelRecord)),
      ((labeled.foldl (dedupStep ex) m).find? (fun p => p.1 == s)).map
          (fun p => p.2) =
        (labeled.filter (fun r => r.stage == s)).foldl keepLatest
          ((m.find? (fun p => p.1 == s)).map (fun p => p.2)) := by
  intro labeled
  induction labeled with
  | nil => intro m; rfl
  | cons e rest ih =>
    intro m
    simp only [List.foldl_cons, List.filter_cons]
    by_cases hes : e.stage = s
    · subst hes
      rw [ih (dedupStep ex m e)]
      rw [dedupStep_find?_same hs]
      simp
    · rw [ih (dedupStep ex m e)]
      rw [dedupStep_find?_ne (Ne.symm hes)]
      simp [hes]

theorem stageEntry_eq_scan {ex : List String} {labeled : List LabelRecord}
    {s : String} (hs : ex.contains s = false) :
    stageEntry ex labeled s =
      (labeled.filter (fun r => r.stage == s)).foldl keepLatest none := by
  unfold stageEntry latestByStage
  rw [foldl_dedup_find? hs labeled []]
  rfl

/-- The two records for C4: same stage, equal timestamps, different version
ids, appearing in this order during collection. -/
def c4r1 : LabelRecord := ⟨"shared-stage", "v1", 5⟩

def c4r2 : LabelRecord := ⟨"shared-stage", "v2", 5⟩

/-- C4 counterexample: with two records for the same stage carrying EQUAL
timestamps, the index retains the FIRST-seen record (`v1`), not the
last-seen one (`v2`) as the claim states — the loop replaces only on a
strictly newer timestamp. -/
theorem dedup_equal_timestamps_first_seen_wins :
    uniqueStagesOf [] [c4r1, c4r2] = [c4r1] ∧
    c4r1 ≠ c4r2 ∧
    uniqueStagesOf [] [c4r1, c4r2] ≠ [c4r2] := by
  refine ⟨rfl, by decide, ?_⟩
  intro h
  have : c4r1 = c4r2 := by
    have h2 : uniqueStagesOf [] [c4r1, c4r2] = [c4r1] := rfl
    rw [h2] at h
    simpa using h
  exact absurd this (by decide)

/-- C4 as amended: for every stage `s` not excluded, the record the
deduplication retains for `s` is the result of the left-to-right scan that
replaces the kept record only when strictly newer; consequently it is a
record of maximal `createdDate` among the collected records for `s`, and on
equal timestamps the FIRST-seen record wins (it is the first record of the
scan order attaining the maximum). -/
theorem dedup_keeps_latest_first_on_ties (excludeStages : List String)
    (labeled : List LabelRecord) (s : String)
    (hs : excludeStages.contains s = false) :
    stageEntry excludeStages labeled s =
      (labeled.filter (fun r => r.stage == s)).foldl keepLatest none ∧
    ∀ r, stageEntry excludeStages labeled s = some r →
      r ∈ labeled.filter (fun r2 => r2.stage == s) ∧
      (∀ y ∈ labeled.filter (fun r2 => r2.stage == s),
        y.createdDate ≤ r.createdDate) ∧
      (labeled.filter (fun r2 => r2.stage == s)).find?
        (fun y => y.createdDate == r.createdDate) = some r := by
  have hscan := @stageEntry_eq_scan excludeStages labeled s hs
  refine ⟨hscan, ?_⟩
  intro r hr
  rw [hscan, foldl_keepLatest_none] at hr
  exact ⟨firstMax_mem hr, firstMax_ge hr, firstMax_find? hr⟩

/-- Witness for the amended C4 at the concrete equal-timestamp pair: the
retained record for `"shared-stage"` is `c4r1`, the first-seen. -/
theorem dedup_keeps_latest_witness :
    stageEntry [] [c4r1, c4r2] "shared-stage" =
      ([c4r1, c4r2].filter (fun r => r.stage == "shared-stage")).foldl
        keepLatest none ∧
    ∀ r, stageEntry [] [c4r1, c4r2] "shared-stage" = some r →
      r ∈ [c4r1, c4r2].filter (fun r2 => r2.stage == "shared-stage") ∧
      (∀ y ∈ [c4r1, c4r2].filter (fun r2 => r2.stage == "shared-stage"),
        y.createdDate ≤ r.createdDate) ∧
      ([c4r1, c4r2].filter (fun r2 => r2.stage == "shared-stage")).find?
        (fun y => y.createdDate == r.createdDate) = some r :=
  dedup_keeps_latest_first_on_ties [] [c4r1, c4r2] "shared-stage" rfl

/-! ## Collector and Mutator

Source lines 15–83 of the core module.  A version entry of a listing
response carries `VersionId`, an optional `CreatedDate` and an optional
`VersionStages` array; the collection loop (lines 24–47) pages through
`ListSecretVersionIds` responses until the response carries no (or an empty)
continuation token, flattening each version's stage labels into `labeled`.
The client is modelled as a script: one `ListOutcome` per listing call in
order, and one outcome for the update call; every command the code sends is
appended to a call trace. -/

/-- One entry of `resp.Versions`. -/
structure Version where
  VersionId : String
  CreatedDate : Option Nat
  VersionStages : Option (List String)
deriving DecidableEq, Repr

/-- One listing response: `{ Versions, NextToken }`.  `resp.Versions || []`
treats an absent array as empty, hence the `Option`. -/
structure Page where
  Versions : Option (List Version)
  NextToken : Option String
deriving DecidableEq, Repr

/-- The per-version flattening of source lines 33–45: skip an entry whose
`VersionStages` is absent or empty, otherwise emit one record per stage
label, all sharing the entry's id and timestamp; an absent `CreatedDate`
becomes `new Date(0)`, i.e. the epoch. -/
def flattenVersion (v : Version) : List LabelRecord :=
  match v.VersionStages with
  | none => []
  | some stages =>
    if stages.length = 0 then []
    else stages.map (fun stage =>
      { stage := stage, versionId := v.VersionId,
        createdDate := v.CreatedDate.getD 0 })

/-- All records contributed by one page, in scan order. -/
def pageRecords (p : Page) : List LabelRecord :=
  (p.Versions.getD []).flatMap flattenVersion

/-- Scripted outcome of one listing call. -/
inductive ListOutcome where
  | ok (page : Page)
  | err (msg : String)
deriving DecidableEq, Repr

/-- The remote client as a deterministic script: the n-th listing call gets
the n-th entry of `listResponses`; the update call gets `updateResponse`. -/
structure Client where
  listResponses : List ListOutcome
  updateResponse : Except String Unit

/-- A command sent through `client.send`, with the exact request fields the
code sets. -/
inductive Call where
  | listVersions (secretId : String) (includeDeprecated : Bool)
      (nextToken : Option String) (maxResults : Nat)
  | updateStage (secretId : String) (versionStage : String)
      (removeFromVersionId : String)
deriving DecidableEq, Repr

/-- Is this a listing call (as opposed to a remove-stage mutation)? -/
def Call.isList : Call → Bool
  | .listVersions _ _ _ _ => true
  | .updateStage _ _ _ => false

/-- JS truthiness of `nextToken` in `while (nextToken)`: absent and the
empty string are falsy. -/
def tokenLive : Option String → Bool
  | none => false
  | some s => !(s == "")

/-- Outcome of the collection loop. -/
inductive Collected where
  | done (labeled : List LabelRecord)
  | failed (msg : String)
  | starved
deriving Repr

/-- The do/while collection loop of source lines 24–47.  One iteration:
send a `ListSecretVersionIds` command (recorded), abort on a thrown error,
otherwise flatten the page's versions and continue while the response token
is truthy.  `starved` marks the unmodelled situation where the scripted
responses run out while the loop still wants another page (with a live
token on every scripted response the real loop would not terminate against
this script). -/
def collectLoop (secretId : String) :
    List ListOutcome → Option String → List LabelRecord → List Call →
      Collected × List Call
  | resps, nextToken, acc, calls =>
    let calls := calls ++ [Call.listVersions secretId true nextToken 100]
    match resps with
    | [] => (.starved, calls)
    | .err msg :: _ => (.failed msg, calls)
    | .ok page :: rest =>
      let acc := acc ++ pageRecords page
      if tokenLive page.NextToken then
        collectLoop secretId rest page.NextToken acc calls
      else
        (.done acc, calls)

/-- The `removed` field of a result: `{ stage, versionId }`. -/
structure Removed where
  stage : String
  versionId : String
deriving DecidableEq, Repr

/-- The result object of `trimStagesWithClient`; `removed` is absent in the
no-candidate branch. -/
structure RunResult where
  trimmed : Bool
  removed : Option Removed
  count : Nat
  manageableCount : Nat
deriving Repr

/-- The options object of `trimStagesWithClient` with its default values
(source lines 15–20). -/
structure TrimArgs where
  secretId : String
  threshold : Nat := 18
  excludeStages : List String := ["AWSCURRENT", "AWSPREVIOUS", "AWSPENDING"]
  dryRun : Bool := false

/-- Source lines 49–82 after collection has produced `labeled`: dedupe,
select, and either return early (no candidate / dry-run) or send the one
`UpdateSecretVersionStage` command and report the removal.  Returns the
result (or the propagated update error) together with the calls issued in
this phase. -/
def finishRun (client : Client) (args : TrimArgs)
    (labeled : List LabelRecord) : Except String RunResult × List Call :=
  match pickOldestStageToDeprecate (uniqueStagesOf args.excludeStages labeled)
      args.threshold with
  | none =>
    (.ok { trimmed := false, removed := none, count := labeled.length,
           manageableCount := (uniqueStagesOf args.excludeStages labeled).length },
     [])
  | some candidate =>
    if args.dryRun then
      (.ok { trimmed := false,
             removed := some ⟨candidate.stage, candidate.versionId⟩,
             count := labeled.length,
             manageableCount := (uniqueStagesOf args.excludeStages labeled).length },
       [])
    else
      match client.updateResponse with
      | .error e =>
        (.error e,
         [Call.updateStage args.secretId candidate.stage candidate.versionId])
      | .ok _ =>
        (.ok { trimmed := true,
               removed := some ⟨candidate.stage, candidate.versionId⟩,
               count := labeled.length,
               manageableCount := (uniqueStagesOf args.excludeStages labeled).length },
         [Call.updateStage args.secretId candidate.stage candidate.versionId])

/-- `trimStagesWithClient(client, options)`: run the collection loop, then
the dedup/select/mutate phase.  The first component is `none` exactly when
the scripted responses were exhausted (unmodelled nontermination of the
do/while loop); otherwise it is the returned result or the propagated
error.  The second component is the full trace of commands sent. -/
def trimStagesWithClient (client : Client) (args : TrimArgs) :
    Option (Except String RunResult) × List Call :=
  match collectLoop args.secretId client.listResponses none [] [] with
  | (.starved, calls) => (none, calls)
  | (.failed e, calls) => (some (.error e), calls)
  | (.done labeled, calls) =>
    let fin := finishRun client args labeled
    (some fin.1, calls ++ fin.2)

/-- Versions used by the C8 witness: one entry with no stage labels, one
entry with two labels and a missing creation timestamp. -/
def c8empty : Version := ⟨"v0", some 3, none⟩

def c8v : Version := ⟨"v9", none, some ["s1", "s2"]⟩

/-- C8: a version entry with no stage labels contributes no record; an entry
with labels contributes exactly one record per label, all sharing its id and
(epoch-defaulted) timestamp; a missing creation timestamp becomes the epoch
rather than a failure. -/
theorem flatten_version_contract (v : Version) :
    (v.VersionStages = none → flattenVersion v = []) ∧
    (v.VersionStages = some [] → flattenVersion v = []) ∧
    (∀ ls, v.VersionStages = some ls →
      flattenVersion v = ls.map (fun stage =>
        { stage := stage, versionId := v.VersionId,
          createdDate := v.CreatedDate.getD 0 })) ∧
    (v.CreatedDate = none → ∀ r ∈ flattenVersion v, r.createdDate = 0) := by
  obtain ⟨vid, cd, vs⟩ := v
  refine ⟨?_, ?_, ?_, ?_⟩
  · intro h
    simp only at h
    subst h
    rfl
  · intro h
    simp only at h
    subst h
    rfl
  · intro ls h
    simp only at h
    subst h
    cases ls with
    | nil => rfl
    | cons s t => simp [flattenVersion]
  · intro h r hr
    simp only at h
    subst h
    cases vs with
    | none => simp [flattenVersion] at hr
    | some ls =>
      simp only [flattenVersion] at hr
      by_cases hl : ls.length = 0
      · rw [if_pos hl] at hr
        simp at hr
      · rw [if_neg hl] at hr
        obtain ⟨s, _, hs⟩ := List.mem_map.mp hr
        rw [← hs]
        rfl

/-- Witness for C8 at the two concrete versions. -/
theorem flatten_version_contract_witness :
    flattenVersion c8empty = [] ∧
    flattenVersion c8v = ["s1", "s2"].map (fun stage =>
      { stage := stage, versionId := c8v.VersionId,
        createdDate := c8v.CreatedDate.getD 0 }) ∧
    (∀ r ∈ flattenVersion c8v, r.createdDate = 0) :=
  ⟨(flatten_version_contract c8empty).1 rfl,
   (flatten_version_contract c8v).2.2.1 ["s1", "s2"] rfl,
   (flatten_version_contract c8v).2.2.2 rfl⟩

theorem collectLoop_nil (sid : String) (tok : Option String)
    (acc : List LabelRecord) (calls : List Call) :
    collectLoop sid [] tok acc calls =
      (.starved, calls ++ [Call.listVersions sid true tok 100]) := rfl

theorem collectLoop_err (sid : String) (msg : String)
    (rest : List ListOutcome) (tok : Option String) (acc : List LabelRecord)
    (calls : List Call) :
    collectLoop sid (.err msg :: rest) tok acc calls =
      (.failed msg, calls ++ [Call.listVersions sid true tok 100]) := rfl

theorem collectLoop_ok (sid : String) (page : Page)
    (rest : List ListOutcome) (tok : Option String) (acc : List LabelRecord)
    (calls : List Call) :
    collectLoop sid (.ok page :: rest) tok acc calls =
      if tokenLive page.NextToken then
        collectLoop sid rest page.NextToken (acc ++ pageRecords page)
          (calls ++ [Call.listVersions sid true tok 100])
      else
        (.done (acc ++ pageRecords page),
         calls ++ [Call.listVersions sid true tok 100]) := rfl

theorem collectLoop_calls_isList (sid : String) :
    ∀ (resps : List ListOutcome) (tok : Option String)
      (acc : List LabelRecord) (calls : List Call),
      (∀ c ∈ calls, c.isList = true) →
      ∀ c ∈ (collectLoop sid resps tok acc calls).2, c.isList = true := by
  intro resps
  induction resps with
  | nil =>
    intro tok acc calls hc c hmem
    rw [collectLoop_nil] at hmem
    rcases List.mem_append.mp hmem with h | h
    · exact hc c h
    · have hce : c = Call.listVersions sid true tok 100 := by simpa using h
      subst hce
      rfl
  | cons r rest ih =>
    intro tok acc calls hc c hmem
    cases r with
    | err msg =>
      rw [collectLoop_err] at hmem
      rcases List.mem_append.mp hmem with h | h
      · exact hc c h
      · have hce : c = Call.listVersions sid true tok 100 := by simpa using h
        subst hce
        rfl
    | ok page =>
      rw [collectLoop_ok] at hmem
      by_cases htok : tokenLive page.NextToken = true
      · rw [if_pos htok] at hmem
        refine ih page.NextToken (acc ++ pageRecords page) _ ?_ c hmem
        intro c2 h2
        rcases List.mem_append.mp h2 with h | h
        · exact hc c2 h
        · have hce : c2 = Call.listVersions sid true tok 100 := by simpa using h
          subst hce
          rfl
      · rw [if_neg htok] at hmem
        rcases List.mem_append.mp hmem with h | h
        · exact hc c h
        · have hce : c = Call.listVersions sid true tok 100 := by simpa using h
          subst hce
          rfl

/-- The expected sequence of listing calls for a scripted page sequence:
one call per page while the previous response's token stays truthy, each
carrying the token of the response before it. -/
def listCallsFor (sid : String) (tok : Option String) : List Page → List Call
  | [] => []
  | p :: rest =>
    Call.listVersions sid true tok 100 ::
      (if tokenLive p.NextToken then listCallsFor sid p.NextToken rest else [])

theorem collectLoop_pages (sid : String) :
    ∀ (pages : List Page) (tok : Option String) (acc : List LabelRecord)
      (calls : List Call),
      pages ≠ [] →
      (∀ p ∈ pages.dropLast, tokenLive p.NextToken = true) →
      (∀ p, pages.getLast? = some p → tokenLive p.NextToken = false) →
      collectLoop sid (pages.map ListOutcome.ok) tok acc calls =
        (.done (acc ++ pages.flatMap pageRecords),
         calls ++ listCallsFor sid tok pages) := by
  intro pages
  induction pages with
  | nil => intro tok acc calls hne _ _; exact absurd rfl hne
  | cons p rest ih =>
    intro tok acc calls _ hmid hlast
    rw [List.map_cons, collectLoop_ok]
    cases rest with
    | nil =>
      have hl : tokenLive p.NextToken = false := hlast p (by simp)
      rw [if_neg (by simp [hl])]
      simp [listCallsFor, hl]
    | cons q qrest =>
      have hp : tokenLive p.NextToken = true := hmid p (by simp)
      have hmid2 : ∀ p2 ∈ (q :: qrest).dropLast, tokenLive p2.NextToken = true := by
        intro p2 h2
        apply hmid
        rw [List.dropLast_cons₂]
        exact List.mem_cons_of_mem _ h2
      have hlast2 : ∀ p2, (q :: qrest).getLast? = some p2 →
          tokenLive p2.NextToken = false := by
        intro p2 h2
        apply hlast
        rw [List.getLast?_cons_cons]
        exact h2
      rw [if_pos hp]
      rw [ih p.NextToken (acc ++ pageRecords p)
        (calls ++ [Call.listVersions sid true tok 100]) (by simp) hmid2 hlast2]
      simp [listCallsFor, hp, List.append_assoc]

theorem listCallsFor_isList (sid : String) :
    ∀ (pages : List Page) (tok : Option String),
      ∀ c ∈ listCallsFor sid tok pages, c.isList = true := by
  intro pages
  induction pages with
  | nil => intro tok c hc; simp [listCallsFor] at hc
  | cons p rest ih =>
    intro tok c hc
    simp only [listCallsFor] at hc
    rcases List.mem_cons.mp hc with hce | hct
    · subst hce; rfl
    · by_cases hp : tokenLive p.NextToken = true
      · rw [if_pos hp] at hct
        exact ih p.NextToken c hct
      · rw [if_neg hp] at hct
        simp at hct

theorem listCallsFor_cons (sid : String) (tok : Option String) (p : Page)
    (rest : List Page) :
    listCallsFor sid tok (p :: rest) =
      Call.listVersions sid true tok 100 ::
        (if tokenLive p.NextToken then listCallsFor sid p.NextToken rest
         else []) := rfl

theorem listCallsFor_length (sid : String) :
    ∀ (pages : List Page) (tok : Option String),
      (∀ p ∈ pages.dropLast, tokenLive p.NextToken = true) →
      (listCallsFor sid tok pages).length = pages.length := by
  intro pages
  induction pages with
  | nil => intro tok _; rfl
  | cons p rest ih =>
    intro tok hmid
    cases rest with
    | nil =>
      rw [listCallsFor_cons]
      cases htok : tokenLive p.NextToken <;> simp [listCallsFor]
    | cons q qrest =>
      have hp : tokenLive p.NextToken = true := hmid p (by simp)
      have hmid2 : ∀ p2 ∈ (q :: qrest).dropLast, tokenLive p2.NextToken = true := by
        intro p2 h2
        apply hmid
        rw [List.dropLast_cons₂]
        exact List.mem_cons_of_mem _ h2
      rw [listCallsFor_cons, if_pos hp]
      rw [List.length_cons, ih p.NextToken hmid2]
      rfl

theorem listCallsFor_tokens (sid : String) :
    ∀ (pages : List Page) (tok : Option String),
      pages ≠ [] →
      (∀ p ∈ pages.dropLast, tokenLive p.NextToken = true) →
      listCallsFor sid tok pages =
        (tok :: pages.dropLast.map (fun p => p.NextToken)).map
          (fun t => Call.listVersions sid true t 100) := by
  intro pages
  induction pages with
  | nil => intro tok hne _; exact absurd rfl hne
  | cons p rest ih =>
    intro tok _ hmid
    cases rest with
    | nil =>
      rw [listCallsFor_cons]
      cases htok : tokenLive p.NextToken <;> simp [listCallsFor]
    | cons q qrest =>
      have hp : tokenLive p.NextToken = true := hmid p (by simp)
      have hmid2 : ∀ p2 ∈ (q :: qrest).dropLast, tokenLive p2.NextToken = true := by
        intro p2 h2
        apply hmid
        rw [List.dropLast_cons₂]
        exact List.mem_cons_of_mem _ h2
      rw [listCallsFor_cons, if_pos hp]
      rw [ih p.NextToken (by simp) hmid2]
      simp

theorem finishRun_none (client : Client) (args : TrimArgs)
    (labeled : List LabelRecord)
    (h : pickOldestStageToDeprecate (uniqueStagesOf args.excludeStages labeled)
      args.threshold = none) :
    finishRun client args labeled =
      (.ok { trimmed := false, removed := none, count := labeled.length,
             manageableCount := (uniqueStagesOf args.excludeStages labeled).length },
       []) := by
  unfold finishRun
  simp only [h]

theorem finishRun_dryRun (client : Client) (args : TrimArgs)
    (labeled : List LabelRecord) (cand : LabelRecord)
    (h : pickOldestStageToDeprecate (uniqueStagesOf args.excludeStages labeled)
      args.threshold = some cand)
    (hd : args.dryRun = true) :
    finishRun client args labeled =
      (.ok { trimmed := false,
             removed := some ⟨cand.stage, cand.versionId⟩,
             count := labeled.length,
             manageableCount := (uniqueStagesOf args.excludeStages labeled).length },
       []) := by
  unfold finishRun
  simp only [h, hd, if_true]

theorem finishRun_update_ok (client : Client) (args : TrimArgs)
    (labeled : List LabelRecord) (cand : LabelRecord)
    (h : pickOldestStageToDeprecate (uniqueStagesOf args.excludeStages labeled)
      args.threshold = some cand)
    (hd : args.dryRun = false)
    (hu : client.updateResponse = .ok ()) :
    finishRun client args labeled =
      (.ok { trimmed := true,
             removed := some ⟨cand.stage, cand.versionId⟩,
             count := labeled.length,
             manageableCount := (uniqueStagesOf args.excludeStages labeled).length },
       [Call.updateStage args.secretId cand.stage cand.versionId]) := by
  unfold finishRun
  simp only [h, hd, Bool.false_eq_true, if_false, hu]

theorem finishRun_update_err (client : Client) (args : TrimArgs)
    (labeled : List LabelRecord) (cand : LabelRecord) (e : String)
    (h : pickOldestStageToDeprecate (uniqueStagesOf args.excludeStages labeled)
      args.threshold = some cand)
    (hd : args.dryRun = false)
    (hu : client.updateResponse = .error e) :
    finishRun client args labeled =
      (.error e,
       [Call.updateStage args.secretId cand.stage cand.versionId]) := by
  unfold finishRun
  simp only [h, hd, Bool.false_eq_true, if_false, hu]

theorem finishRun_calls_not_list (client : Client) (args : TrimArgs)
    (labeled : List LabelRecord) :
    ∀ c ∈ (finishRun client args labeled).2, c.isList = false := by
  cases h : pickOldestStageToDeprecate
      (uniqueStagesOf args.excludeStages labeled) args.threshold with
  | none =>
    rw [finishRun_none client args labeled h]
    intro c hc
    simp at hc
  | some cand =>
    by_cases hd : args.dryRun = true
    · rw [finishRun_dryRun client args labeled cand h hd]
      intro c hc
      simp at hc
    · have hdf : args.dryRun = false := by
        revert hd
        cases args.dryRun <;> simp
      cases hu : client.updateResponse with
      | error e =>
        rw [finishRun_update_err client args labeled cand e h hdf hu]
        intro c hc
        have hce : c = Call.updateStage args.secretId cand.stage cand.versionId := by
          simpa using hc
        subst hce
        rfl
      | ok u =>
        cases u
        rw [finishRun_update_ok client args labeled cand h hdf hu]
        intro c hc
        have hce : c = Call.updateStage args.secretId cand.stage cand.versionId := by
          simpa using hc
        subst hce
        rfl

theorem trim_done (client : Client) (args : TrimArgs)
    (labeled : List LabelRecord) (calls : List Call)
    (hc : collectLoop args.secretId client.listResponses none [] [] =
      (.done labeled, calls)) :
    trimStagesWithClient client args =
      (some (finishRun client args labeled).1,
       calls ++ (finishRun client args labeled).2) := by
  unfold trimStagesWithClient
  rw [hc]

theorem trim_failed (client : Client) (args : TrimArgs) (e : String)
    (calls : List Call)
    (hc : collectLoop args.secretId client.listResponses none [] [] =
      (.failed e, calls)) :
    trimStagesWithClient client args = (some (.error e), calls) := by
  unfold trimStagesWithClient
  rw [hc]

theorem collect_calls_isList (client : Client) (args : TrimArgs)
    {out : Collected} {calls : List Call}
    (hc : collectLoop args.secretId client.listResponses none [] [] =
      (out, calls)) :
    ∀ c ∈ calls, c.isList = true := by
  have h := collectLoop_calls_isList args.secretId client.listResponses none [] []
    (by intro c h2; simp at h2)
  rw [hc] at h
  exact h

/-- C1: when collection succeeds, a candidate is selected, dry-run is off and
the update call succeeds, the run issues exactly one remove-stage mutation —
with exactly the secretId, the candidate's stage and the candidate's version
id — and returns `trimmed := true` with `removed` equal to that same pair. -/
theorem successful_trim_contract (client : Client) (args : TrimArgs)
    (labeled : List LabelRecord) (calls : List Call) (cand : LabelRecord)
    (hcol : collectLoop args.secretId client.listResponses none [] [] =
      (.done labeled, calls))
    (hcand : pickOldestStageToDeprecate
      (uniqueStagesOf args.excludeStages labeled) args.threshold = some cand)
    (hdry : args.dryRun = false)
    (hupd : client.updateResponse = .ok ()) :
    trimStagesWithClient client args =
      (some (.ok { trimmed := true,
                   removed := some ⟨cand.stage, cand.versionId⟩,
                   count := labeled.length,
                   manageableCount :=
                     (uniqueStagesOf args.excludeStages labeled).length }),
       calls ++ [Call.updateStage args.secretId cand.stage cand.versionId]) ∧
    (trimStagesWithClient client args).2.filter (fun c => !c.isList) =
      [Call.updateStage args.secretId cand.stage cand.versionId] := by
  have heq := trim_done client args labeled calls hcol
  rw [finishRun_update_ok client args labeled cand hcand hdry hupd] at heq
  refine ⟨heq, ?_⟩
  rw [heq]
  simp only [List.filter_append]
  rw [show calls.filter (fun c => !c.isList) = [] from
    List.filter_eq_nil_iff.mpr (by
      intro c hcm
      simp [collect_calls_isList client args hcol c hcm])]
  rfl

/-- Fixture for the mutating-path witnesses: one page holding two versions
with one custom stage each, no continuation token, and a succeeding update
call. -/
def wPage : Page :=
  ⟨some [⟨"v1", some 1, some ["s1"]⟩, ⟨"v2", some 2, some ["s2"]⟩], none⟩

def wClient : Client := ⟨[ListOutcome.ok wPage], .ok ()⟩

def wArgs : TrimArgs := { secretId := "my/secret", threshold := 1 }

/-- Witness for C1: two manageable stages against threshold 1 remove the
older stage `s1` from `v1` with exactly one mutation call. -/
theorem successful_trim_contract_witness :
    trimStagesWithClient wClient wArgs =
      (some (.ok { trimmed := true, removed := some ⟨"s1", "v1"⟩,
                   count := 2, manageableCount := 2 }),
       [Call.listVersions "my/secret" true none 100,
        Call.updateStage "my/secret" "s1" "v1"]) ∧
    (trimStagesWithClient wClient wArgs).2.filter (fun c => !c.isList) =
      [Call.updateStage "my/secret" "s1" "v1"] :=
  successful_trim_contract wClient wArgs
    [⟨"s1", "v1", 1⟩, ⟨"s2", "v2", 2⟩]
    [Call.listVersions "my/secret" true none 100]
    ⟨"s1", "v1", 1⟩
    rfl
    (by rw [pickOldest_eq_exec]; rfl)
    rfl
    rfl

/-- C6: with dry-run enabled and a candidate selected, the result reports
`trimmed := false` while still carrying the would-be-removed pair, and no
remove-stage mutation call is issued. -/
theorem dry_run_contract (client : Client) (args : TrimArgs)
    (labeled : List LabelRecord) (calls : List Call) (cand : LabelRecord)
    (hcol : collectLoop args.secretId client.listResponses none [] [] =
      (.done labeled, calls))
    (hcand : pickOldestStageToDeprecate
      (uniqueStagesOf args.excludeStages labeled) args.threshold = some cand)
    (hdry : args.dryRun = true) :
    trimStagesWithClient client args =
      (some (.ok { trimmed := false,
                   removed := some ⟨cand.stage, cand.versionId⟩,
                   count := labeled.length,
                   manageableCount :=
                     (uniqueStagesOf args.excludeStages labeled).length }),
       calls) ∧
    (trimStagesWithClient client args).2.filter (fun c => !c.isList) = [] := by
  have heq := trim_done client args labeled calls hcol
  rw [finishRun_dryRun client args labeled cand hcand hdry] at heq
  rw [List.append_nil] at heq
  refine ⟨heq, ?_⟩
  rw [heq]
  exact List.filter_eq_nil_iff.mpr (by
    intro c hcm
    simp [collect_calls_isList client args hcol c hcm])

def wArgsDry : TrimArgs := { secretId := "my/secret", threshold := 1, dryRun := true }

/-- Witness for C6 at the same fixture with dry-run on: same candidate
reported, zero mutation calls. -/
theorem dry_run_contract_witness :
    trimStagesWithClient wClient wArgsDry =
      (some (.ok { trimmed := false, removed := some ⟨"s1", "v1"⟩,
                   count := 2, manageableCount := 2 }),
       [Call.listVersions "my/secret" true none 100]) ∧
    (trimStagesWithClient wClient wArgsDry).2.filter (fun c => !c.isList) = [] :=
  dry_run_contract wClient wArgsDry
    [⟨"s1", "v1", 1⟩, ⟨"s2", "v2", 2⟩]
    [Call.listVersions "my/secret" true none 100]
    ⟨"s1", "v1", 1⟩
    rfl
    (by rw [pickOldest_eq_exec]; rfl)
    rfl

/-- C10: when the deduplicated manageable stage count is at or below the
threshold, the run's observable behaviour is identical for `dryRun := true`
and `dryRun := false`: same result with `trimmed := false` and no `removed`
field, and no remove-stage mutation call in either case. -/
theorem no_candidate_dryrun_indistinguishable (client : Client)
    (sid : String) (th : Nat) (ex : List String)
    (labeled : List LabelRecord) (calls : List Call)
    (hcol : collectLoop sid client.listResponses none [] [] =
      (.done labeled, calls))
    (hcand : pickOldestStageToDeprecate (uniqueStagesOf ex labeled) th = none) :
    trimStagesWithClient client ⟨sid, th, ex, true⟩ =
      trimStagesWithClient client ⟨sid, th, ex, false⟩ ∧
    (∀ d : Bool,
      trimStagesWithClient client ⟨sid, th, ex, d⟩ =
        (some (.ok { trimmed := false, removed := none,
                     count := labeled.length,
                     manageableCount := (uniqueStagesOf ex labeled).length }),
         calls) ∧
      (trimStagesWithClient client ⟨sid, th, ex, d⟩).2.filter
        (fun c => !c.isList) = []) := by
  have hall : ∀ d : Bool,
      trimStagesWithClient client ⟨sid, th, ex, d⟩ =
        (some (.ok { trimmed := false, removed := none,
                     count := labeled.length,
                     manageableCount := (uniqueStagesOf ex labeled).length }),
         calls) := by
    intro d
    have heq := trim_done client ⟨sid, th, ex, d⟩ labeled calls hcol
    rw [finishRun_none client ⟨sid, th, ex, d⟩ labeled hcand] at heq
    rw [List.append_nil] at heq
    exact heq
  refine ⟨(hall true).trans (hall false).symm, ?_⟩
  intro d
  refine ⟨hall d, ?_⟩
  rw [hall d]
  exact List.filter_eq_nil_iff.mpr (by
    intro c hcm
    simp [collect_calls_isList client ⟨sid, th, ex, d⟩ hcol c hcm])

/-- Witness for C10: two manageable stages against the default threshold 18
behave identically with dry-run on or off. -/
theorem no_candidate_dryrun_witness :
    trimStagesWithClient wClient
        ⟨"my/secret", 18, ["AWSCURRENT", "AWSPREVIOUS", "AWSPENDING"], true⟩ =
      trimStagesWithClient wClient
        ⟨"my/secret", 18, ["AWSCURRENT", "AWSPREVIOUS", "AWSPENDING"], false⟩ ∧
    (∀ d : Bool,
      trimStagesWithClient wClient
          ⟨"my/secret", 18, ["AWSCURRENT", "AWSPREVIOUS", "AWSPENDING"], d⟩ =
        (some (.ok { trimmed := false, removed := none,
                     count := 2, manageableCount := 2 }),
         [Call.listVersions "my/secret" true none 100]) ∧
      (trimStagesWithClient wClient
          ⟨"my/secret", 18, ["AWSCURRENT", "AWSPREVIOUS", "AWSPENDING"], d⟩).2.filter
        (fun c => !c.isList) = []) :=
  no_candidate_dryrun_indistinguishable wClient "my/secret" 18
    ["AWSCURRENT", "AWSPREVIOUS", "AWSPENDING"]
    [⟨"s1", "v1", 1⟩, ⟨"s2", "v2", 2⟩]
    [Call.listVersions "my/secret" true none 100]
    rfl
    (by rw [pickOldest_eq_exec]; rfl)

/-- C7: a listing error aborts the run with no mutation ever issued; a
mutation error propagates to the caller unmodified and no `trimmed := true`
result is produced. -/
theorem error_propagation (client : Client) (args : TrimArgs) :
    (∀ e calls,
      collectLoop args.secretId client.listResponses none [] [] =
        (.failed e, calls) →
      trimStagesWithClient client args = (some (.error e), calls) ∧
      ∀ c ∈ (trimStagesWithClient client args).2, c.isList = true) ∧
    (∀ labeled calls cand e,
      collectLoop args.secretId client.listResponses none [] [] =
        (.done labeled, calls) →
      pickOldestStageToDeprecate
        (uniqueStagesOf args.excludeStages labeled) args.threshold = some cand →
      args.dryRun = false →
      client.updateResponse = .error e →
      trimStagesWithClient client args =
        (some (.error e),
         calls ++ [Call.updateStage args.secretId cand.stage cand.versionId]) ∧
      ∀ res : RunResult,
        (trimStagesWithClient client args).1 ≠ some (.ok res)) := by
  constructor
  · intro e calls hcol
    have heq := trim_failed client args e calls hcol
    refine ⟨heq, ?_⟩
    rw [heq]
    exact collect_calls_isList client args hcol
  · intro labeled calls cand e hcol hcand hdry hupd
    have heq := trim_done client args labeled calls hcol
    rw [finishRun_update_err client args labeled cand e hcand hdry hupd] at heq
    refine ⟨heq, ?_⟩
    rw [heq]
    intro res h
    simp at h

/-- Fixtures for the C7 witness: a client whose first listing call throws,
and a client whose update call throws. -/
def wErrClient : Client := ⟨[ListOutcome.err "boom"], .ok ()⟩

def wUpdFailClient : Client := ⟨[ListOutcome.ok wPage], .error "upd-fail"⟩

/-- Witness for C7: the listing error aborts with only the one listing call
recorded, and the update error is returned verbatim. -/
theorem error_propagation_witness :
    (trimStagesWithClient wErrClient wArgs =
      (some (.error "boom"), [Call.listVersions "my/secret" true none 100]) ∧
     ∀ c ∈ (trimStagesWithClient wErrClient wArgs).2, c.isList = true) ∧
    (trimStagesWithClient wUpdFailClient wArgs =
      (some (.error "upd-fail"),
       [Call.listVersions "my/secret" true none 100,
        Call.updateStage "my/secret" "s1" "v1"]) ∧
     ∀ res : RunResult,
       (trimStagesWithClient wUpdFailClient wArgs).1 ≠ some (.ok res)) :=
  ⟨(error_propagation wErrClient wArgs).1 "boom"
      [Call.listVersions "my/secret" true none 100] rfl,
   (error_propagation wUpdFailClient wArgs).2
      [⟨"s1", "v1", 1⟩, ⟨"s2", "v2", 2⟩]
      [Call.listVersions "my/secret" true none 100]
      ⟨"s1", "v1", 1⟩ "upd-fail"
      rfl
      (by rw [pickOldest_eq_exec]; rfl)
      rfl
      rfl⟩

/-- C5: for a script of N listing pages where every page but the last
carries a live continuation token (and the last does not), the run issues
exactly N listing calls — the first with no token, each subsequent one with
the previous response's token — and every decision (threshold comparison,
selection, mutation) is taken by the finishing phase on the aggregation of
all pages' labels, with any mutation call strictly after the listing calls. -/
theorem pagination_contract (client : Client) (args : TrimArgs)
    (pages : List Page)
    (hscript : client.listResponses = pages.map ListOutcome.ok)
    (hne : pages ≠ [])
    (hmid : ∀ p ∈ pages.dropLast, tokenLive p.NextToken = true)
    (hlast : ∀ p, pages.getLast? = some p → tokenLive p.NextToken = false) :
    trimStagesWithClient client args =
      (some (finishRun client args (pages.flatMap pageRecords)).1,
       listCallsFor args.secretId none pages ++
         (finishRun client args (pages.flatMap pageRecords)).2) ∧
    (trimStagesWithClient client args).2.filter (fun c => c.isList) =
      listCallsFor args.secretId none pages ∧
    ((trimStagesWithClient client args).2.filter (fun c => c.isList)).length =
      pages.length ∧
    listCallsFor args.secretId none pages =
      (none :: pages.dropLast.map (fun p => p.NextToken)).map
        (fun t => Call.listVersions args.secretId true t 100) := by
  have hcol : collectLoop args.secretId client.listResponses none [] [] =
      (.done (pages.flatMap pageRecords),
       listCallsFor args.secretId none pages) := by
    rw [hscript]
    have h := collectLoop_pages args.secretId pages none [] [] hne hmid hlast
    simpa using h
  have heq := trim_done client args (pages.flatMap pageRecords)
    (listCallsFor args.secretId none pages) hcol
  have hfilter : (trimStagesWithClient client args).2.filter
      (fun c => c.isList) = listCallsFor args.secretId none pages := by
    rw [heq]
    simp only [List.filter_append]
    rw [List.filter_eq_self.mpr (by
      intro c hc
      simp [listCallsFor_isList args.secretId pages none c hc])]
    rw [List.filter_eq_nil_iff.mpr (by
      intro c hc
      simp [finishRun_calls_not_list client args (pages.flatMap pageRecords) c hc])]
    exact List.append_nil _
  refine ⟨heq, hfilter, ?_, listCallsFor_tokens args.secretId pages none hne hmid⟩
  rw [hfilter]
  exact listCallsFor_length args.secretId pages none hmid

/-- Fixture for the C5 witness: the two-page script of the pagination test —
page 1 holds `s1`/`s2` with token `next-1`, page 2 holds `s3` and the
excluded `AWSCURRENT` with no token. -/
def wP1 : Page :=
  ⟨some [⟨"v1", some 1, some ["s1"]⟩, ⟨"v2", some 2, some ["s2"]⟩],
   some "next-1"⟩

def wP2 : Page :=
  ⟨some [⟨"v3", some 3, some ["s3"]⟩, ⟨"v4", some 4, some ["AWSCURRENT"]⟩],
   none⟩

def wPagClient : Client := ⟨[ListOutcome.ok wP1, ListOutcome.ok wP2], .ok ()⟩

def wPagArgs : TrimArgs := { secretId := "my/secret", threshold := 2 }

/-- Witness for C5 at the two-page fixture: exactly two listing calls, the
second carrying `next-1`, and the decision taken on all four labels. -/
theorem pagination_contract_witness :
    trimStagesWithClient wPagClient wPagArgs =
      (some (finishRun wPagClient wPagArgs
        ([wP1, wP2].flatMap pageRecords)).1,
       listCallsFor wPagArgs.secretId none [wP1, wP2] ++
         (finishRun wPagClient wPagArgs
           ([wP1, wP2].flatMap pageRecords)).2) ∧
    (trimStagesWithClient wPagClient wPagArgs).2.filter (fun c => c.isList) =
      listCallsFor wPagArgs.secretId none [wP1, wP2] ∧
    ((trimStagesWithClient wPagClient wPagArgs).2.filter
      (fun c => c.isList)).length = ([wP1, wP2] : List Page).length ∧
    listCallsFor wPagArgs.secretId none [wP1, wP2] =
      (none :: ([wP1, wP2] : List Page).dropLast.map (fun p => p.NextToken)).map
        (fun t => Call.listVersions wPagArgs.secretId true t 100) :=
  pagination_contract wPagClient wPagArgs [wP1, wP2]
    rfl
    (by simp)
    (by
      intro p hp
      simp only [List.dropLast] at hp
      rcases List.mem_cons.mp hp with h | h
      · rw [h]; rfl
      · simp at h)
    (by
      intro p hp
      have h2 : wP2 = p := by simpa using hp
      rw [← h2]
      rfl)

/-! ## The invocation wrapper's exclusion-list parsing

Source lines 91–94 of the core module's `run`:
```
const excludeStagesRaw = core.getInput("exclude-stages") || "AWSCURRENT,AWSPREVIOUS,AWSPENDING";
const excludeStages = new Set(excludeStagesRaw.split(",").map(s => s.trim()).filter(Boolean));
```
`core.getInput` yields `""` when the input is not supplied, so `||` replaces
both an absent and an empty input by the default.  JS `split(",")` and
`trim` are modelled over the character list of the string. -/

def splitCommaAux : List Char → List Char → List String
  | [], cur => [String.mk cur.reverse]
  | c :: rest, cur =>
    if c = ',' then String.mk cur.reverse :: splitCommaAux rest []
    else splitCommaAux rest (c :: cur)

/-- JS `raw.split(",")`: split at every comma, keeping empty pieces. -/
def splitComma (s : String) : List String := splitCommaAux s.data []

/-- JS `s.trim()`: strip leading and trailing whitespace. -/
def jsTrim (s : String) : String :=
  String.mk
    (((s.data.dropWhile Char.isWhitespace).reverse.dropWhile
        Char.isWhitespace).reverse)

/-- The exclusion set built by the wrapper from the `exclude-stages` input
(`""` meaning "not supplied"): default, split on commas, trim each piece,
drop empty pieces (`filter(Boolean)`). -/
def runExcludeStages (input : String) : List String :=
  ((splitComma (if input = "" then "AWSCURRENT,AWSPREVIOUS,AWSPENDING"
                else input)).map jsTrim).filter (fun s => s ≠ "")

/-- C9: with no exclusion list supplied, both the wrapper's parsing and the
`trimStagesWithClient` parameter default yield exactly the three reserved
system stages, so by default no reserved stage ever enters the deduplicated
index (hence never counts toward the threshold) and none can be the selected
candidate. -/
theorem default_exclusions (sid : String) (labeled : List LabelRecord) :
    runExcludeStages "" = ["AWSCURRENT", "AWSPREVIOUS", "AWSPENDING"] ∧
    ({ secretId := sid } : TrimArgs).excludeStages =
      ["AWSCURRENT", "AWSPREVIOUS", "AWSPENDING"] ∧
    (∀ r ∈ uniqueStagesOf ({ secretId := sid } : TrimArgs).excludeStages labeled,
      r.stage ≠ "AWSCURRENT" ∧ r.stage ≠ "AWSPREVIOUS" ∧
        r.stage ≠ "AWSPENDING") ∧
    (∀ threshold c,
      pickOldestStageToDeprecate
        (uniqueStagesOf ({ secretId := sid } : TrimArgs).excludeStages labeled)
        threshold = some c →
      c.stage ≠ "AWSCURRENT" ∧ c.stage ≠ "AWSPREVIOUS" ∧
        c.stage ≠ "AWSPENDING") := by
  refine ⟨rfl, rfl, ?_, ?_⟩
  · intro r hr
    have h := mem_uniqueStages_not_excluded hr
    simpa using h
  · intro threshold c hc
    have h := mem_uniqueStages_not_excluded (pickOldest_mem hc)
    simpa using h

/-- Witness for C9 at a concrete collection containing a reserved-stage
record. -/
theorem default_exclusions_witness :
    runExcludeStages "" = ["AWSCURRENT", "AWSPREVIOUS", "AWSPENDING"] ∧
    ({ secretId := "my/secret" } : TrimArgs).excludeStages =
      ["AWSCURRENT", "AWSPREVIOUS", "AWSPENDING"] ∧
    (∀ r ∈ uniqueStagesOf
        ({ secretId := "my/secret" } : TrimArgs).excludeStages c3labeled,
      r.stage ≠ "AWSCURRENT" ∧ r.stage ≠ "AWSPREVIOUS" ∧
        r.stage ≠ "AWSPENDING") ∧
    (∀ threshold c,
      pickOldestStageToDeprecate
        (uniqueStagesOf
          ({ secretId := "my/secret" } : TrimArgs).excludeStages c3labeled)
        threshold = some c →
      c.stage ≠ "AWSCURRENT" ∧ c.stage ≠ "AWSPREVIOUS" ∧
        c.stage ≠ "AWSPENDING") :=
  default_exclusions "my/secret" c3labeled
